import Mathlib

/-!
Verification development for the salesforce-job-agent candidate pipeline.

The Python sources are shallowly embedded: Python `str` becomes `String`
with explicit helpers mirroring `str.strip`, `str.lower`, `in`, `split`,
`join`; job dicts become the `Job` structure (absent fields are `""`/`[]`);
Python sets become `Finset String` or explicit seen-lists where the code
iterates. Each definition carries a comment naming the source function it
embeds.
-/

/-- Model of Python `str.lower()` (ASCII case folding, as used by the code). -/
def pyLower (s : String) : String := ⟨s.data.map Char.toLower⟩

/-- Core of `str.strip()` on a character list: drop leading and trailing whitespace. -/
def stripCore (l : List Char) : List Char :=
  ((l.dropWhile Char.isWhitespace).reverse.dropWhile Char.isWhitespace).reverse

/-- Model of Python `str.strip()`. -/
def pyStrip (s : String) : String := ⟨stripCore s.data⟩

/-- Occurrence of `nee` as a contiguous subsequence of `hay` (character lists). -/
def listContainsSeq (nee : List Char) : List Char → Bool
  | [] => nee.isEmpty
  | c :: rest => nee.isPrefixOf (c :: rest) || listContainsSeq nee rest

/-- Model of Python `nee in hay` on strings (substring containment). -/
def pyContains (hay nee : String) : Bool := listContainsSeq nee.data hay.data

/-- Model of Python slicing `s[:n]`. -/
def pyTakeChars (n : Nat) (s : String) : String := ⟨s.data.take n⟩

/-- Model of Python `s.startswith(p)`. -/
def pyStartsWith (s p : String) : Bool := p.data.isPrefixOf s.data

/-- Model of Python `s.endswith(p)`. -/
def pyEndsWith (s p : String) : Bool := p.data.isSuffixOf s.data

/-- Model of Python `s.rstrip(chars)`: drop trailing characters from `set`. -/
def pyRstripSet (s : String) (set : List Char) : String :=
  ⟨(s.data.reverse.dropWhile (fun c => set.contains c)).reverse⟩

/-- Split a character list on a separator character, keeping empty pieces
(the semantics of Python `s.split(sep)`). -/
def splitCharAux (sep : Char) : List Char → List Char → List (List Char)
  | [], acc => [acc.reverse]
  | c :: rest, acc =>
    if c = sep then acc.reverse :: splitCharAux sep rest []
    else splitCharAux sep rest (c :: acc)

/-- Model of Python `s.split(sep)` for a one-character separator. -/
def pySplitOnChar (sep : Char) (s : String) : List String :=
  (splitCharAux sep s.data []).map (fun l => ⟨l⟩)

/-- Split a character list at whitespace, keeping empty pieces. -/
def splitWsAux : List Char → List Char → List (List Char)
  | [], acc => [acc.reverse]
  | c :: rest, acc =>
    if c.isWhitespace then acc.reverse :: splitWsAux rest []
    else splitWsAux rest (c :: acc)

/-- Model of Python `s.split()` (split on whitespace runs, dropping empties). -/
def pySplitWs (s : String) : List String :=
  ((splitWsAux s.data []).filter (fun l => !l.isEmpty)).map (fun l => ⟨l⟩)

/-- Model of Python `sep.join(parts)`. -/
def joinWith (sep : String) : List String → String
  | [] => ""
  | [s] => s
  | s :: rest => s ++ sep ++ joinWith sep rest

/-- Job record: the semantic shape of the job dicts flowing through the
pipeline. A field the dict lacks is modelled as `""` (resp. `[]`), matching
the code's `str(job.get(...) or "")` accesses. -/
structure Job where
  position : String := ""
  company : String := ""
  url : String := ""
  description : String := ""
  location : String := ""
  tags : List String := []
  category : String := ""
deriving DecidableEq, Inhabited

namespace RemoteOK

/-- Embeds `_keyword_chunks` (sources/remoteok.py:88-91). -/
def _keyword_chunks (needle : String) : List String :=
  let parts := (pySplitOnChar ',' needle).map (fun p => pyLower (pyStrip p))
  let chunks := parts.filter (fun p => p ≠ "")
  if chunks.isEmpty then [pyLower (pyStrip needle)] else chunks

/-- Alias expansion of one chunk: the chunk itself, the fixed alias set for
the literal chunk `"developer"`, and the three engineer variants for chunks
ending in `" developer"` (the loop body of `_keyword_aliases`,
sources/remoteok.py:52-77). -/
def aliasesOfChunk (chunk : String) : List String :=
  let compact := joinWith " " (pySplitWs chunk)
  chunk ::
    (if compact = "developer" then
      ["engineer", "software engineer", "software developer", "sde",
       "backend engineer", "back-end engineer", "full stack engineer",
       "full-stack engineer"]
    else if pyEndsWith compact " developer" then
      let pre := pyStrip (pyTakeChars (compact.data.length - " developer".data.length) compact)
      if pre ≠ "" then
        [pre ++ " engineer", "software " ++ pre ++ " engineer", pre ++ " software engineer"]
      else []
    else [])

/-- Raw alias list before the final dedup pass of `_keyword_aliases`. -/
def _keyword_alias_items (needle : String) : List String :=
  (_keyword_chunks needle).flatMap aliasesOfChunk

/-- Order-preserving dedup that also drops empty strings (the
`if item and item not in seen` pass of `_keyword_aliases`,
sources/remoteok.py:78-85). -/
def dedupeNonemptyStr (seen : List String) : List String → List String
  | [] => []
  | x :: rest =>
    if x ≠ "" && !seen.contains x then x :: dedupeNonemptyStr (x :: seen) rest
    else dedupeNonemptyStr seen rest

/-- Embeds `_keyword_aliases` (sources/remoteok.py:50-85). -/
def _keyword_aliases (needle : String) : List String :=
  dedupeNonemptyStr [] (_keyword_alias_items needle)

/-- Token loop of `_keyword_token_fallback_terms`: strip each token, keep
tokens of length at least 3, dropping duplicates (sources/remoteok.py:99-108). -/
def fallbackTokensAux (seen : List String) : List String → List String
  | [] => []
  | tok :: rest =>
    let token := pyStrip tok
    if token.data.length < 3 || seen.contains token then fallbackTokensAux seen rest
    else token :: fallbackTokensAux (token :: seen) rest

/-- Unique qualifying tokens (length at least 3, first occurrence kept) of all
comma chunks of the keyword. -/
def keywordUniqueTokens (needle : String) : List String :=
  fallbackTokensAux [] ((_keyword_chunks needle).flatMap pySplitWs)

/-- Embeds `_keyword_token_fallback_terms` (sources/remoteok.py:94-110):
the unique qualifying tokens when there are at least two of them, else `[]`. -/
def _keyword_token_fallback_terms (needle : String) : List String :=
  let tokens := keywordUniqueTokens needle
  if 2 ≤ tokens.length then tokens else []

/-- Haystack of `filter_jobs_by_keyword` (sources/remoteok.py:29-38): title,
description truncated to 800 characters, company, location, tags and
category, space-joined then lowercased. -/
def filterHaystack (job : Job) : String :=
  pyLower (joinWith " "
    [job.position,
     pyTakeChars 800 job.description,
     job.company,
     job.location,
     joinWith " " (job.tags.filter (fun t => t ≠ "")),
     job.category])

/-- Embeds `filter_jobs_by_keyword` (sources/remoteok.py:20-47). -/
def filter_jobs_by_keyword (jobs : List Job) (keyword : String) : List Job :=
  let needle := pyLower (pyStrip keyword)
  if needle = "" then jobs
  else
    let aliases := _keyword_aliases needle
    let token_fallback := _keyword_token_fallback_terms needle
    jobs.filter (fun job =>
      let haystack := filterHaystack job
      aliases.any (fun term => pyContains haystack term) ||
        (!token_fallback.isEmpty && token_fallback.all (fun term => pyContains haystack term)))

/-- Embeds `llm_payload` (sources/remoteok.py:113-124): title, company, url
and a 250-character snippet for the first `limit` jobs. -/
def llm_payload (jobs : List Job) (limit : Nat) : List (String × String × String × String) :=
  (jobs.take limit).map (fun job =>
    (job.position, job.company, job.url, pyTakeChars 250 job.description))

/-- Embeds `stable_job_key` (sources/remoteok.py:127-133). -/
def stable_job_key (job : Job) : String :=
  let url := pyStrip job.url
  if url ≠ "" then url
  else
    let title := pyStrip job.position
    let company := pyStrip job.company
    company ++ "::" ++ title

end RemoteOK

namespace Agent

/-- Agent options bundle (backend/job_agent/agent.py:78-99). A `None` list is
modelled as `[]` and a `None` string as `""`, matching the `or []` / `or ""`
accesses in the code; only the fields the pipeline stages read are kept. -/
structure AgentOptions where
  keyword : String := "developer"
  remote_only : Bool := true
  strict_senior_only : Bool := true
  dedupe_enabled : Bool := true
  experience_level : String := ""
  target_roles : List String := []
  tech_stack_tags : List String := []
  negative_keywords : List String := []
deriving DecidableEq, Inhabited

/-- Constant table (backend/job_agent/agent.py:26-39). -/
def SOFTWARE_FOCUS_HINTS : List String :=
  ["developer", "engineer", "software", "backend", "frontend", "full stack",
   "full-stack", "java", "python", "golang", "node", "sde"]

/-- Constant table (backend/job_agent/agent.py:40-50). -/
def SOFTWARE_TITLE_POSITIVE_TERMS : List String :=
  ["engineer", "developer", "software", "backend", "frontend", "full stack",
   "full-stack", "platform", "sde"]

/-- Constant table (backend/job_agent/agent.py:51-64). -/
def SOFTWARE_TITLE_HARD_NEGATIVE_TERMS : List String :=
  ["recruiter", "talent acquisition", "account executive", "sales representative",
   "sales manager", "business development", "customer support", "customer success",
   "support specialist", "support representative", "marketing manager", "brand manager"]

/-- Constant table (backend/job_agent/agent.py:65-75). -/
def SOFTWARE_TITLE_SOFT_NEGATIVE_TERMS : List String :=
  ["qa ", "quality assurance", "manual tester", "technical writer",
   "project manager", "program manager", "scrum master", "product manager", "analyst"]

/-- Loop of `_normalize_terms` (backend/job_agent/agent.py:145-154). -/
def normalizeTermsAux (seen : List String) : List String → List String
  | [] => []
  | item :: rest =>
    let s := pyLower (pyStrip item)
    if s = "" || seen.contains s then normalizeTermsAux seen rest
    else s :: normalizeTermsAux (s :: seen) rest

/-- Embeds `_normalize_terms` (backend/job_agent/agent.py:145-154). -/
def _normalize_terms (items : List String) : List String := normalizeTermsAux [] items

/-- Dedup loop of `_keyword_chunks` (backend/job_agent/agent.py:165-171). -/
def dedupeStrAux (seen : List String) : List String → List String
  | [] => []
  | x :: rest =>
    if seen.contains x then dedupeStrAux seen rest
    else x :: dedupeStrAux (x :: seen) rest

/-- Embeds `_keyword_chunks` (backend/job_agent/agent.py:157-172); unlike the
remoteok variant it returns `[]` for a blank keyword and deduplicates chunks. -/
def _keyword_chunks (keyword : String) : List String :=
  let raw := pyLower (pyStrip keyword)
  if raw = "" then []
  else
    let parts := (pySplitOnChar ',' raw).map pyStrip
    let chunks := parts.filter (fun p => p ≠ "")
    if chunks.isEmpty then [raw]
    else dedupeStrAux [] chunks

/-- Token loop of the agent `_keyword_token_fallback_terms`
(backend/job_agent/agent.py:180-186): tokens are stripped and lowercased,
kept when of length at least 3 and not seen before. -/
def agentFallbackTokensAux (seen : List String) : List String → List String
  | [] => []
  | tok :: rest =>
    let token := pyLower (pyStrip tok)
    if token.data.length < 3 || seen.contains token then agentFallbackTokensAux seen rest
    else token :: agentFallbackTokensAux (token :: seen) rest

/-- Embeds `_keyword_token_fallback_terms` (backend/job_agent/agent.py:175-187). -/
def _keyword_token_fallback_terms (keyword : String) : List String :=
  let out := agentFallbackTokensAux [] ((_keyword_chunks keyword).flatMap pySplitWs)
  if 2 ≤ out.length then out else []

/-- Embeds `_looks_like_software_focus` (backend/job_agent/agent.py:222-227). -/
def _looks_like_software_focus (options : AgentOptions) : Bool :=
  let keyword := pyLower (pyStrip options.keyword)
  SOFTWARE_FOCUS_HINTS.any (fun term => pyContains keyword term) ||
    (let targets := joinWith " " (_normalize_terms options.target_roles)
     SOFTWARE_FOCUS_HINTS.any (fun term => pyContains targets term))

/-- Embeds `_title_matches_any` (backend/job_agent/agent.py:230-231). -/
def _title_matches_any (title : String) (terms : List String) : Bool :=
  terms.any (fun term => pyContains title term)

/-- Embeds `_is_obviously_irrelevant_for_software` (backend/job_agent/agent.py:234-245). -/
def _is_obviously_irrelevant_for_software (job : Job) (options : AgentOptions) : Bool :=
  if !_looks_like_software_focus options then false
  else
    let title := pyLower (pyStrip job.position)
    if title = "" then false
    else
      _title_matches_any title SOFTWARE_TITLE_HARD_NEGATIVE_TERMS &&
        !_title_matches_any title SOFTWARE_TITLE_POSITIVE_TERMS

/-- Lowercased, space-joined tag text (the
`" ".join(str(t).lower() for t in (job.get("tags") or []) if t)` expression). -/
def jobTagsText (job : Job) : String :=
  joinWith " " ((job.tags.filter (fun t => t ≠ "")).map pyLower)

/-- Per-chunk match-tier score of `_keyword_score`
(backend/job_agent/agent.py:259-268): title 8, else tags 5, else
description 3, else company 1, else 0. -/
def chunkTier (title tags desc company needle : String) : Int :=
  if pyContains title needle then 8
  else if pyContains tags needle then 5
  else if pyContains desc needle then 3
  else if pyContains company needle then 1
  else 0

/-- Max-loop of `_keyword_score` (backend/job_agent/agent.py:258-269): the
keyword base score before alias/java/token boosts. -/
def _keyword_base_score (job : Job) (keyword : String) : Int :=
  let title := pyLower job.position
  let desc := pyLower job.description
  let tags := jobTagsText job
  let company := pyLower job.company
  (_keyword_chunks keyword).foldl (fun s needle => max s (chunkTier title tags desc company needle)) 0

/-- Embeds `_keyword_score` (backend/job_agent/agent.py:248-288). -/
def _keyword_score (job : Job) (keyword : String) : Int :=
  let chunks := _keyword_chunks keyword
  if chunks.isEmpty then 0
  else
    let title := pyLower job.position
    let desc := pyLower job.description
    let tags := jobTagsText job
    let company := pyLower job.company
    let hay := title ++ "\n" ++ tags ++ "\n" ++ desc ++ "\n" ++ company
    let score := _keyword_base_score job keyword
    let score := score +
      (if chunks.contains "developer" then
        (if ["engineer", "software engineer", "sde"].any (fun t => pyContains title t) then 5
         else if ["engineering", "developer"].any (fun t => pyContains tags t) then 2
         else 0)
      else 0)
    let score := score +
      (if chunks.any (fun c => pyContains c "java") then
        (if pyContains title "java" then 4
         else if pyContains tags "java" then 2
         else 0)
      else 0)
    let token_fallback := _keyword_token_fallback_terms keyword
    if score = 0 && !token_fallback.isEmpty &&
        token_fallback.all (fun term => pyContains hay term) then
      score + (if 1 ≤ (token_fallback.filter (fun term => pyContains title term)).length then 4 else 2)
    else score

/-- Embeds `_negative_penalty` (backend/job_agent/agent.py:291-317). -/
def _negative_penalty (job : Job) (options : AgentOptions) : Int :=
  let title := pyLower job.position
  let desc := pyLower job.description
  let p0 : Int :=
    if _looks_like_software_focus options &&
        _title_matches_any title SOFTWARE_TITLE_SOFT_NEGATIVE_TERMS then 6 else 0
  let p1 := p0 +
    (if ["intern", "internship", "trainee", "apprentice"].any (fun t => pyContains title t) then 12 else 0)
  let p2 := p1 +
    (if options.strict_senior_only &&
        ["junior", "jr", "entry", "associate"].any (fun t => pyContains title t) then 10 else 0)
  let p3 := p2 + (if pyContains title "contract" && !pyContains desc "full-time" then 2 else 0)
  let user_negatives := _normalize_terms options.negative_keywords
  let tags := jobTagsText job
  let company := pyLower job.company
  p3 + (if user_negatives.any (fun term =>
          term ≠ "" && (pyContains desc term || pyContains tags term || pyContains company term))
        then 8 else 0)

/-- Embeds `_matches_user_negative_title_signal` (backend/job_agent/agent.py:320-331). -/
def _matches_user_negative_title_signal (job : Job) (options : AgentOptions) : Bool :=
  let negatives := _normalize_terms options.negative_keywords
  if negatives.isEmpty then false
  else
    let title := pyLower job.position
    let tags := jobTagsText job
    negatives.any (fun term => term ≠ "" && (pyContains title term || pyContains tags term))

/-- Embeds `_score_job_for_profile` (backend/job_agent/agent.py:334-371). -/
def _score_job_for_profile (job : Job) (options : AgentOptions) : Int :=
  let title := pyLower job.position
  let desc := pyLower job.description
  let tags := jobTagsText job
  let company := pyLower job.company
  let hay := title ++ "\n" ++ desc ++ "\n" ++ tags ++ "\n" ++ company
  let score := _keyword_score job options.keyword
  let score := score +
    (if SOFTWARE_TITLE_POSITIVE_TERMS.any (fun t => pyContains title t) then 3 else 0)
  let score := score + (_normalize_terms options.target_roles).foldl
    (fun acc role => acc + (if pyContains title role then 7 else if pyContains hay role then 2 else 0)) 0
  let score := score + (_normalize_terms options.tech_stack_tags).foldl
    (fun acc tag => acc + (if pyContains title tag then 5 else if pyContains hay tag then 2 else 0)) 0
  let exp := pyLower (pyStrip options.experience_level)
  let score := score +
    (if exp = "senior" || exp = "staff" then
      (if ["senior", "staff", "principal", "lead", "architect"].any (fun t => pyContains title t) then 3 else 0)
    else if exp = "mid" then
      (if ["engineer", "developer", "sde"].any (fun t => pyContains title t) then 2 else 0)
    else if exp = "entry" then
      (if ["junior", "associate", "entry"].any (fun t => pyContains title t) then 2 else 0) +
        (if ["senior", "staff", "principal"].any (fun t => pyContains title t) then -1 else 0)
    else 0)
  score - _negative_penalty job options

/-- Keep-condition of the pre-filter loop in `_rank_jobs_for_profile`
(backend/job_agent/agent.py:380-387): neither hard-excluded as obviously
irrelevant nor matching a user negative keyword in title or tags. -/
def rankKeep (job : Job) (options : AgentOptions) : Bool :=
  !_is_obviously_irrelevant_for_software job options &&
    !_matches_user_negative_title_signal job options

/-- Embeds `_rank_jobs_for_profile` (backend/job_agent/agent.py:374-401):
drop hard-excluded jobs, then sort by profile score, descending and stable
(Python `sorted(..., reverse=True)` is a stable sort, as is
`List.insertionSort` with this relation). -/
def _rank_jobs_for_profile (jobs : List Job) (options : AgentOptions) : List Job :=
  if jobs.isEmpty then jobs
  else
    let filtered := jobs.filter (fun j => rankKeep j options)
    List.insertionSort
      (fun a b => _score_job_for_profile b options ≤ _score_job_for_profile a options) filtered

/-- Embeds `_new_jobs_only` (backend/job_agent/agent.py:404-412). -/
def _new_jobs_only (jobs : List Job) (seen_before : Finset String) : List Job :=
  if seen_before = ∅ then jobs
  else jobs.filter (fun job =>
    RemoteOK.stable_job_key job ≠ "" && !(RemoteOK.stable_job_key job ∈ seen_before))

/-- Company bucket of the per-company capper (backend/job_agent/agent.py:425):
trimmed lowercased company name, with `"__unknown__"` for a blank company. -/
def companyBucketKey (job : Job) : String :=
  let c := pyLower (pyStrip job.company)
  if c = "" then "__unknown__" else c

/-- Walk of `_cap_jobs_per_company_for_llm` (backend/job_agent/agent.py:422-430),
with the running per-company counts as a function. -/
def capGo (maxK : Int) (counts : String → Nat) : List Job → List Job
  | [] => []
  | job :: rest =>
    let ckey := companyBucketKey job
    let cnt := counts ckey
    if maxK ≤ (cnt : Int) then capGo maxK counts rest
    else job :: capGo maxK (fun k => if k = ckey then cnt + 1 else counts k) rest

/-- Embeds `_cap_jobs_per_company_for_llm` (backend/job_agent/agent.py:415-431). -/
def _cap_jobs_per_company_for_llm (jobs : List Job) (max_per_company : Int) : List Job :=
  if max_per_company ≤ 0 then jobs
  else capGo max_per_company (fun _ => 0) jobs

end Agent

namespace Agent

/-- Scheme characters accepted before `":"` when parsing a URL. -/
def schemeChar (c : Char) : Bool := c.isAlphanum || c = '+' || c = '-' || c = '.'

/-- Modelled from the spec and `urllib.parse.urlparse`: the scheme and netloc
fields of an absolute `scheme://netloc/...` URL, `none` when the URL has no
`scheme://` part (urlparse itself lives outside the repository). -/
def urlSchemeNetloc (url : String) : Option (String × String) :=
  let d := url.data
  let sch := d.takeWhile schemeChar
  if sch.isEmpty then none
  else
    match d.drop sch.length with
    | ':' :: '/' :: '/' :: rest =>
      some (⟨sch.map Char.toLower⟩, ⟨rest.takeWhile (fun c => !(c = '/' || c = '?' || c = '#'))⟩)
    | _ => none

/-- Embeds `_company_careers_hint_url` (backend/job_agent/agent.py:434-446):
first job with a URL that parses to a nonempty scheme and netloc yields
`scheme://netloc`. -/
def _company_careers_hint_url : List Job → Option String
  | [] => none
  | job :: rest =>
    let raw := pyStrip job.url
    if raw = "" then _company_careers_hint_url rest
    else
      match urlSchemeNetloc raw with
      | some (sch, net) =>
        if sch ≠ "" && net ≠ "" then some (sch ++ "://" ++ net)
        else _company_careers_hint_url rest
      | none => _company_careers_hint_url rest

/-- First character of a list exists and is not whitespace. -/
def headNonWs : List Char → Bool
  | [] => false
  | c :: _ => !c.isWhitespace

/-- Model of `re.search(r"https?://\S+", line)`: the first position starting
with `http://` or `https://` that is followed by at least one further
non-whitespace character yields the maximal non-whitespace run from there. -/
def findUrlToken : List Char → Option (List Char)
  | [] => none
  | c :: rest =>
    let l := c :: rest
    if ("https://".data.isPrefixOf l && headNonWs (l.drop 8)) ||
        ("http://".data.isPrefixOf l && headNonWs (l.drop 7)) then
      some (l.takeWhile (fun ch => !ch.isWhitespace))
    else findUrlToken rest

/-- String wrapper for `findUrlToken`. -/
def reSearchUrl (s : String) : Option String := (findUrlToken s.data).map (fun l => ⟨l⟩)

/-- Line loop of `_extract_urls_from_bullets` (backend/job_agent/agent.py:486-501),
with the seen-URL set as a list. -/
def extractUrlsAux (seen : List String) : List String → List String
  | [] => []
  | line :: rest =>
    let line := pyStrip line
    if !pyStartsWith line "- " then extractUrlsAux seen rest
    else
      match reSearchUrl line with
      | none => extractUrlsAux seen rest
      | some m =>
        let url := pyRstripSet m [')', '.', ',', ']']
        if seen.contains url then extractUrlsAux seen rest
        else url :: extractUrlsAux (url :: seen) rest

/-- Embeds `_extract_urls_from_bullets` (backend/job_agent/agent.py:486-501). -/
def _extract_urls_from_bullets (text : String) : List String :=
  extractUrlsAux [] (pySplitOnChar '\n' text)

/-- The `by_url` dict of `_match_emailed_jobs_from_output`
(backend/job_agent/agent.py:512-516) as an association list: first job per
nonempty trimmed URL wins. -/
def byUrlAux (acc : List (String × Job)) : List Job → List (String × Job)
  | [] => acc
  | job :: rest =>
    let url := pyStrip job.url
    if url ≠ "" && (acc.lookup url).isNone then byUrlAux (acc ++ [(url, job)]) rest
    else byUrlAux acc rest

/-- URL-matching loop of `_match_emailed_jobs_from_output`
(backend/job_agent/agent.py:517-528), deduplicating matches by job key. -/
def matchUrlsAux (byUrl : List (String × Job)) (seenKeys : List String) :
    List String → List Job
  | [] => []
  | url :: rest =>
    match byUrl.lookup url with
    | none => matchUrlsAux byUrl seenKeys rest
    | some job =>
      let key := RemoteOK.stable_job_key job
      if key ≠ "" && seenKeys.contains key then matchUrlsAux byUrl seenKeys rest
      else if key ≠ "" then job :: matchUrlsAux byUrl (key :: seenKeys) rest
      else job :: matchUrlsAux byUrl seenKeys rest

/-- Embeds `_match_emailed_jobs_from_output` (backend/job_agent/agent.py:504-528). -/
def _match_emailed_jobs_from_output (cleaned_output : String) (candidate_jobs : List Job) :
    List Job :=
  let urls := _extract_urls_from_bullets cleaned_output
  if urls.isEmpty then []
  else matchUrlsAux (byUrlAux [] candidate_jobs) [] urls

/-- Loop of `_carryover_jobs_from_sent_history`
(backend/job_agent/agent.py:562-570), with the accumulated output made
explicit; note the `break` fires once the output reaches `limit`. -/
def carryGo (sent excl : Finset String) (limit : Nat) (out : List Job) :
    List Job → List Job
  | [] => out
  | job :: rest =>
    let key := RemoteOK.stable_job_key job
    if key = "" || decide (key ∈ excl) then carryGo sent excl limit out rest
    else
      let out2 := if key ∈ sent then out ++ [job] else out
      if limit ≤ out2.length then out2 else carryGo sent excl limit out2 rest

/-- Embeds `_carryover_jobs_from_sent_history` (backend/job_agent/agent.py:552-571). -/
def _carryover_jobs_from_sent_history (jobs : List Job) (sent_job_keys : Finset String)
    (exclude_job_keys : Finset String) (limit : Nat) : List Job :=
  if jobs.isEmpty || sent_job_keys = ∅ then []
  else carryGo sent_job_keys exclude_job_keys limit [] jobs

/-- Embeds `_format_job_bullet` (backend/job_agent/agent.py:574-580). -/
def _format_job_bullet (job : Job) : Option String :=
  let title := pyStrip job.position
  let company := pyStrip job.company
  let url := pyStrip job.url
  if title ≠ "" && company ≠ "" && url ≠ "" then
    some ("- " ++ title ++ " — " ++ company ++ " — " ++ url)
  else none

/-- Key loop of `_dedupe_jobs_by_key` (backend/job_agent/agent.py:642-651). -/
def dedupeJobsAux (seen : List String) : List Job → List Job
  | [] => []
  | job :: rest =>
    let key := RemoteOK.stable_job_key job
    if key = "" || seen.contains key then dedupeJobsAux seen rest
    else job :: dedupeJobsAux (key :: seen) rest

/-- Embeds `_dedupe_jobs_by_key` (backend/job_agent/agent.py:642-651). -/
def _dedupe_jobs_by_key (jobs : List Job) : List Job := dedupeJobsAux [] jobs

/-- Company display name used by the grouping code
(backend/job_agent/agent.py:601): trimmed company, `"Unknown company"` if blank. -/
def companyDisplay (job : Job) : String :=
  let c := pyStrip job.company
  if c = "" then "Unknown company" else c

/-- Append one job to the grouped association list, preserving first-seen
company order and first-seen display name (the dict/`company_order` updates
of backend/job_agent/agent.py:600-607). -/
def addJobToGroups : List (String × String × List Job) → String → String → Job →
    List (String × String × List Job)
  | [], key, disp, j => [(key, disp, [j])]
  | (k, d, js) :: rest, key, disp, j =>
    if k = key then (k, d, js ++ [j]) :: rest
    else (k, d, js) :: addJobToGroups rest key disp j

/-- Grouping pass of `_build_grouped_job_section`
(backend/job_agent/agent.py:597-607). -/
def buildCompanyGroups (jobs : List Job) : List (String × String × List Job) :=
  jobs.foldl (fun gs j =>
    addJobToGroups gs (pyLower (companyDisplay j)) (companyDisplay j) j) []

/-- Distinct-role collection of the summary branch
(backend/job_agent/agent.py:614-623): up to 3 distinct nonempty trimmed titles. -/
def collectRoles (roles seen : List String) : List Job → List String
  | [] => roles
  | job :: rest =>
    let t := pyStrip job.position
    if t = "" || seen.contains t then collectRoles roles seen rest
    else
      let roles2 := roles ++ [t]
      if 3 ≤ roles2.length then roles2 else collectRoles roles2 (t :: seen) rest

/-- Summary line of the over-threshold branch of `_build_grouped_job_section`
(backend/job_agent/agent.py:612-632). -/
def companySummaryLine (disp : String) (companyJobs : List Job) : String :=
  let roles := collectRoles [] [] companyJobs
  let roleSummary := if roles.isEmpty then "Multiple roles" else joinWith ", " roles
  let remaining := companyJobs.length - roles.length
  let roleSummary :=
    if remaining ≠ 0 then roleSummary ++ " + " ++ toString remaining ++ " more" else roleSummary
  let followUp :=
    match _company_careers_hint_url companyJobs with
    | some link => link
    | none => pyStrip (companyJobs.headD default).url
  if followUp ≠ "" then
    "- " ++ disp ++ " (" ++ toString companyJobs.length ++ " openings) — " ++ roleSummary ++
      " — " ++ followUp
  else
    "- " ++ disp ++ " (" ++ toString companyJobs.length ++ " openings) — " ++ roleSummary

/-- Embeds `_build_grouped_job_section` (backend/job_agent/agent.py:587-639). -/
def _build_grouped_job_section (heading : String) (jobs : List Job)
    (group_threshold : Nat) : String :=
  let jobs := _dedupe_jobs_by_key jobs
  if jobs.isEmpty then heading
  else
    let groups := buildCompanyGroups jobs
    let lines := heading :: groups.flatMap (fun g =>
      if group_threshold < g.2.2.length then [companySummaryLine g.2.1 g.2.2]
      else g.2.2.filterMap _format_job_bullet)
    joinWith "\n" lines

/-- Keys persisted to the snapshot by the backend run
(`current_keys` of `_load_previous_snapshot`, backend/job_agent/agent.py:140-141):
the nonempty stable keys of the ranked keyword-matched jobs. -/
def currentSnapshotKeys (jobs : List Job) : List String :=
  (jobs.map RemoteOK.stable_job_key).filter (fun k => k ≠ "")

/-- LLM-candidate key set of the backend run (backend/job_agent/agent.py:740). -/
def llmCandidateKeys (llm_candidates : List Job) : Finset String :=
  ((llm_candidates.map RemoteOK.stable_job_key).filter (fun k => k ≠ "")).toFinset

/-- Snapshot-store contents after `run_agent` (backend/job_agent/agent.py:693-854)
returns, as a function of the ranked keyword-matched job list. `storeAvailable`
abstracts `seen_jobs_file is not None or snapshot_store is not None`
(agent.py:132-138); `emailSectionsEmpty` selects between the no-email early
return (agent.py:814-819) and the end-of-run save (agent.py:851-852); both
paths run `store.save(set(current_keys))` only when
`options.dedupe_enabled and store is not None`. -/
def run_agent_snapshot_after (dedupeEnabled storeAvailable : Bool)
    (prevSnapshot : Finset String) (keywordJobs : List Job)
    (emailSectionsEmpty : Bool) : Finset String :=
  if keywordJobs.isEmpty then prevSnapshot
  else if emailSectionsEmpty then
    if dedupeEnabled && storeAvailable then (currentSnapshotKeys keywordJobs).toFinset
    else prevSnapshot
  else
    if dedupeEnabled && storeAvailable then (currentSnapshotKeys keywordJobs).toFinset
    else prevSnapshot

end Agent

namespace AgentV1

/-- Snapshot-store contents after the early-generation `run_agent`
(job_agent/agent.py:60-120) returns. With dedup enabled and a file configured,
`_apply_dedupe` (job_agent/agent.py:43-57) yields the new-only candidates and
the processed keys; when no candidates remain the run returns before any save
(agent.py:82-84); otherwise every exit path saves
`seen_before.union(processed_keys)` (agent.py:100, 117-118). -/
def run_agent_v1_snapshot_after (dedupeEnabled fileProvided : Bool)
    (prevSnapshot : Finset String) (keywordJobs : List Job) : Finset String :=
  if keywordJobs.isEmpty then prevSnapshot
  else if !(dedupeEnabled && fileProvided) then prevSnapshot
  else
    let newJobs := keywordJobs.filter (fun j =>
      RemoteOK.stable_job_key j ≠ "" && !(RemoteOK.stable_job_key j ∈ prevSnapshot))
    let processed := (keywordJobs.map RemoteOK.stable_job_key).filter (fun k => k ≠ "")
    if newJobs.isEmpty then prevSnapshot
    else prevSnapshot ∪ processed.toFinset

end AgentV1

/-! Claim-side predicates, worded after the specification sentences, to be
compared with the source embeddings, and concrete sample inputs used by
witnesses and counterexamples. -/

/-- Claim-side matching predicate of the keyword filter, alias part only:
some expanded alias of the keyword (the comma-split chunks, the fixed alias
set for the literal chunk `"developer"`, and the engineer variants for chunks
ending in `" developer"`) occurs in the lowercased haystack. -/
def keywordAliasMatchClaim (keyword : String) (job : Job) : Bool :=
  let needle := pyLower (pyStrip keyword)
  (RemoteOK._keyword_alias_items needle).any
    (fun term => pyContains (RemoteOK.filterHaystack job) term)

/-- Claim-side matching predicate of the keyword filter: an alias occurs in
the haystack, or the keyword yields at least 2 unique tokens of length at
least 3 and every such token occurs in the haystack. -/
def keywordMatchClaim (keyword : String) (job : Job) : Bool :=
  let needle := pyLower (pyStrip keyword)
  let tokens := RemoteOK.keywordUniqueTokens needle
  keywordAliasMatchClaim keyword job ||
    (decide (2 ≤ tokens.length) &&
      tokens.all (fun t => pyContains (RemoteOK.filterHaystack job) t))

/-- Claim-side drop predicate of the deterministic pre-filter: the profile
looks software-focused and the title contains a hard-negative term and no
positive software term, or a user-supplied negative keyword appears in the
title or tags. -/
def jobDroppedClaim (job : Job) (options : Agent.AgentOptions) : Bool :=
  (Agent._looks_like_software_focus options &&
    Agent._title_matches_any (pyLower (pyStrip job.position))
      Agent.SOFTWARE_TITLE_HARD_NEGATIVE_TERMS &&
    !Agent._title_matches_any (pyLower (pyStrip job.position))
      Agent.SOFTWARE_TITLE_POSITIVE_TERMS) ||
  Agent._matches_user_negative_title_signal job options

/-- Claim-side per-chunk tier score of the keyword base score. -/
def claimChunkTier (job : Job) (chunk : String) : Int :=
  if pyContains (pyLower job.position) chunk then 8
  else if pyContains (Agent.jobTagsText job) chunk then 5
  else if pyContains (pyLower job.description) chunk then 3
  else if pyContains (pyLower job.company) chunk then 1
  else 0

/-- Sample job `i` at company Acme. -/
def acmeJob (i : Nat) : Job :=
  { position := "Dev " ++ toString i, company := "Acme",
    url := "https://acme.example/" ++ toString i }

/-- Ten Acme jobs, for the per-company-cap scenario. -/
def sampleAcmeJobs : List Job := (List.range 10).map acmeJob

/-- Sample job with a URL. -/
def sampleUrlJob : Job :=
  { position := "Platform Engineer", company := "Globex",
    url := "https://globex.example/123",
    description := "Build and run the platform.", tags := ["python"] }

/-- Sample job whose URL is whitespace only. -/
def sampleNoUrlJob : Job :=
  { position := "Platform Engineer", company := "Globex", url := "   " }

/-- Sample keyword-matched job for the snapshot counterexample. -/
def cxJobNew : Job :=
  { position := "Backend Developer", company := "NewCo", url := "https://jobs.example/new" }

/-- First counterexample job of company CompOne. -/
def cxJobOneA : Job :=
  { position := "Role A", company := "CompOne", url := "https://one.example/a" }

/-- Counterexample job of company CompTwo, placed between the two CompOne jobs. -/
def cxJobTwoB : Job :=
  { position := "Role B", company := "CompTwo", url := "https://two.example/b" }

/-- Second counterexample job of company CompOne. -/
def cxJobOneC : Job :=
  { position := "Role C", company := "CompOne", url := "https://one.example/c" }

/-! Basic facts about the string model. -/

/-- Empty needle occurs in every haystack. -/
theorem listContainsSeq_nil (l : List Char) : listContainsSeq [] l = true := by
  cases l <;> simp [listContainsSeq, List.isPrefixOf]

/-- Model of the fact that `"" in s` holds for every Python string `s`. -/
theorem pyContains_empty (hay : String) : pyContains hay "" = true :=
  listContainsSeq_nil hay.data

/-- A string is empty iff its character list is. -/
theorem string_eq_empty_iff_data (s : String) : s = "" ↔ s.data = [] := by
  rw [String.ext_iff]

/-- Appending a nonempty string on the right yields a nonempty string. -/
theorem append_ne_empty_right (a b : String) (hb : b ≠ "") : a ++ b ≠ "" := by
  intro h
  rw [string_eq_empty_iff_data, String.data_append, List.append_eq_nil] at h
  exact hb ((string_eq_empty_iff_data b).mpr h.2)

/-- Lowercasing preserves emptiness. -/
theorem pyLower_eq_empty_iff (s : String) : pyLower s = "" ↔ s = "" := by
  rw [string_eq_empty_iff_data, string_eq_empty_iff_data]
  show s.data.map Char.toLower = [] ↔ s.data = []
  simp

/-- Lowercasing does not change whether a character is whitespace. -/
theorem isWhitespace_toLower (c : Char) : (Char.toLower c).isWhitespace = c.isWhitespace := by
  show (if c.toNat ≥ 65 ∧ c.toNat ≤ 90 then Char.ofNat (c.toNat + 32) else c).isWhitespace =
    c.isWhitespace
  by_cases h : c.toNat ≥ 65 ∧ c.toNat ≤ 90
  · rw [if_pos h]
    obtain ⟨h1, h2⟩ := h
    have hc : c.isWhitespace = false := by
      have w32 : c ≠ ' ' := fun e => by rw [e] at h1; exact absurd h1 (by decide)
      have w9 : c ≠ '\t' := fun e => by rw [e] at h1; exact absurd h1 (by decide)
      have w13 : c ≠ '\r' := fun e => by rw [e] at h1; exact absurd h1 (by decide)
      have w10 : c ≠ '\n' := fun e => by rw [e] at h1; exact absurd h1 (by decide)
      simp [Char.isWhitespace, w32, w9, w13, w10]
    rw [hc]
    generalize hg : c.toNat = n at h1 h2
    interval_cases n <;> decide
  · rw [if_neg h]

/-- The stable job key is never the empty string: either it is the nonempty
trimmed URL, or it contains the literal `"::"`. -/
theorem stable_job_key_ne_empty (job : Job) : RemoteOK.stable_job_key job ≠ "" := by
  show (if pyStrip job.url ≠ "" then pyStrip job.url
    else pyStrip job.company ++ "::" ++ pyStrip job.position) ≠ ""
  by_cases h : pyStrip job.url ≠ ""
  · rw [if_pos h]; exact h
  · rw [if_neg h]
    intro hx
    have := (string_eq_empty_iff_data _).mp hx
    rw [String.data_append, String.data_append, List.append_eq_nil, List.append_eq_nil] at this
    exact absurd this.1.2 (by decide)

/-- Stripping an already stripped-and-lowercased nonempty string cannot reach
the empty string (needed because the code re-strips the needle when the
comma-split yields no chunks). -/
theorem pyStrip_pyLower_pyStrip_ne (kw : String) (h : pyLower (pyStrip kw) ≠ "") :
    pyLower (pyStrip (pyLower (pyStrip kw))) ≠ "" := by
  intro hx
  have h1 : stripCore (pyLower (pyStrip kw)).data = [] :=
    (string_eq_empty_iff_data _).mp ((pyLower_eq_empty_iff _).mp hx)
  have hall : ∀ x ∈ (pyLower (pyStrip kw)).data, x.isWhitespace = true := by
    unfold stripCore at h1
    rw [List.reverse_eq_nil_iff, List.dropWhile_eq_nil_iff] at h1
    have hdrop : (pyLower (pyStrip kw)).data.dropWhile Char.isWhitespace = [] := by
      by_contra hne
      have hws := List.head_dropWhile_not Char.isWhitespace (pyLower (pyStrip kw)).data hne
      have hmem := List.head_mem hne
      have hx2 := h1 _ (List.mem_reverse.mpr hmem)
      rw [hws] at hx2
      exact absurd hx2 (by decide)
    exact List.dropWhile_eq_nil_iff.mp hdrop
  have htne : stripCore kw.data ≠ [] := by
    intro he
    apply h
    rw [string_eq_empty_iff_data]
    show (pyStrip kw).data.map Char.toLower = []
    have h3 : (pyStrip kw).data = stripCore kw.data := rfl
    rw [h3, he]
    rfl
  have hXne :
      (kw.data.dropWhile Char.isWhitespace).reverse.dropWhile Char.isWhitespace ≠ [] := by
    intro he
    apply htne
    show ((kw.data.dropWhile Char.isWhitespace).reverse.dropWhile Char.isWhitespace).reverse = []
    rw [he]
    rfl
  have hwsy := List.head_dropWhile_not Char.isWhitespace
    (kw.data.dropWhile Char.isWhitespace).reverse hXne
  have hymem := List.head_mem hXne
  have hyrev := List.mem_reverse.mpr hymem
  have hylow :
      Char.toLower
        (((kw.data.dropWhile Char.isWhitespace).reverse.dropWhile Char.isWhitespace).head hXne) ∈
        (pyLower (pyStrip kw)).data := by
    show Char.toLower _ ∈
      List.map Char.toLower
        ((kw.data.dropWhile Char.isWhitespace).reverse.dropWhile Char.isWhitespace).reverse
    exact List.mem_map_of_mem Char.toLower hyrev
  have hw := hall _ hylow
  rw [isWhitespace_toLower] at hw
  rw [hw] at hwsy
  exact absurd hwsy (by decide)

/-- List `contains` agrees with membership for strings. -/
theorem contains_iff_mem (l : List String) (a : String) : l.contains a = true ↔ a ∈ l := by
  simp

/-- Membership in the dedup-and-drop-empties pass: exactly the nonempty
elements of the input not already seen. -/
theorem mem_dedupeNonemptyStr (x : String) :
    ∀ (l seen : List String),
      x ∈ RemoteOK.dedupeNonemptyStr seen l ↔ (x ∈ l ∧ x ≠ "" ∧ x ∉ seen) := by
  intro l
  induction l with
  | nil => intro seen; simp [RemoteOK.dedupeNonemptyStr]
  | cons y rest ih =>
    intro seen
    simp only [RemoteOK.dedupeNonemptyStr]
    split
    next hcond =>
      simp only [Bool.and_eq_true, Bool.not_eq_true', decide_eq_true_eq] at hcond
      obtain ⟨hy1, hy2⟩ := hcond
      have hy2m : y ∉ seen := by
        intro hm
        rw [(contains_iff_mem seen y).mpr hm] at hy2
        exact absurd hy2 (by decide)
      constructor
      · intro hx
        rcases List.mem_cons.mp hx with rfl | hx2
        · exact ⟨List.mem_cons_self _ _, hy1, hy2m⟩
        · obtain ⟨hr, hne, hns⟩ := (ih (y :: seen)).mp hx2
          exact ⟨List.mem_cons_of_mem _ hr, hne, fun hm => hns (List.mem_cons_of_mem _ hm)⟩
      · rintro ⟨hor, hne, hns⟩
        by_cases hxy : x = y
        · subst hxy; exact List.mem_cons_self _ _
        · rcases List.mem_cons.mp hor with h1 | hr
          · exact absurd h1 hxy
          · apply List.mem_cons_of_mem
            apply (ih (y :: seen)).mpr
            exact ⟨hr, hne, fun hm => (List.mem_cons.mp hm).elim hxy hns⟩
    next hcond =>
      constructor
      · intro hx
        obtain ⟨hr, hne, hns⟩ := (ih seen).mp hx
        exact ⟨List.mem_cons_of_mem _ hr, hne, hns⟩
      · rintro ⟨hor, hne, hns⟩
        rcases List.mem_cons.mp hor with rfl | hr
        · exact absurd (by simp [hne, hns]) hcond
        · exact (ih seen).mpr ⟨hr, hne, hns⟩

/-- With a nonempty trimmed keyword, every chunk of the remoteok keyword
splitter is nonempty. -/
theorem remoteok_chunks_ne_empty (kw : String) (h : pyLower (pyStrip kw) ≠ "") :
    ∀ c ∈ RemoteOK._keyword_chunks (pyLower (pyStrip kw)), c ≠ "" := by
  intro c hc
  simp only [RemoteOK._keyword_chunks] at hc
  split at hc
  · rcases List.mem_cons.mp hc with rfl | habs
    · exact pyStrip_pyLower_pyStrip_ne kw h
    · exact absurd habs (List.not_mem_nil c)
  · have := (List.mem_filter.mp hc).2
    simpa using this

/-- With a nonempty trimmed keyword, every raw alias item is nonempty. -/
theorem alias_items_ne_empty (kw : String) (h : pyLower (pyStrip kw) ≠ "") :
    ∀ x ∈ RemoteOK._keyword_alias_items (pyLower (pyStrip kw)), x ≠ "" := by
  intro x hx
  simp only [RemoteOK._keyword_alias_items] at hx
  rw [List.mem_flatMap] at hx
  obtain ⟨chunk, hcm, hxa⟩ := hx
  have hchunk : chunk ≠ "" := remoteok_chunks_ne_empty kw h chunk hcm
  simp only [RemoteOK.aliasesOfChunk] at hxa
  rcases List.mem_cons.mp hxa with rfl | hrest
  · exact hchunk
  · split at hrest
    · simp only [List.mem_cons] at hrest
      rcases hrest with rfl | rfl | rfl | rfl | rfl | rfl | rfl | rfl | habs
      all_goals first
        | (intro he; exact absurd he (by decide))
        | exact absurd habs (List.not_mem_nil x)
    · split at hrest
      · split at hrest
        · simp only [List.mem_cons] at hrest
          rcases hrest with rfl | rfl | rfl | habs
          · exact append_ne_empty_right _ " engineer" (by decide)
          · exact append_ne_empty_right _ " engineer" (by decide)
          · exact append_ne_empty_right _ " software engineer" (by decide)
          · exact absurd habs (List.not_mem_nil x)
        · exact absurd hrest (List.not_mem_nil x)
      · exact absurd hrest (List.not_mem_nil x)

/-- With a nonempty trimmed keyword, the deduplicated alias list and the raw
alias item list match the same jobs. -/
theorem any_keyword_aliases (kw : String) (h : pyLower (pyStrip kw) ≠ "") (p : String → Bool) :
    (RemoteOK._keyword_aliases (pyLower (pyStrip kw))).any p =
      (RemoteOK._keyword_alias_items (pyLower (pyStrip kw))).any p := by
  have hiff :
      ((RemoteOK._keyword_aliases (pyLower (pyStrip kw))).any p = true) ↔
        ((RemoteOK._keyword_alias_items (pyLower (pyStrip kw))).any p = true) := by
    rw [List.any_eq_true, List.any_eq_true]
    constructor
    · rintro ⟨x, hx, hp⟩
      exact ⟨x, ((mem_dedupeNonemptyStr x _ []).mp hx).1, hp⟩
    · rintro ⟨x, hx, hp⟩
      refine ⟨x, ?_, hp⟩
      exact (mem_dedupeNonemptyStr x _ []).mpr
        ⟨hx, alias_items_ne_empty kw h x hx, List.not_mem_nil x⟩
  cases hA : (RemoteOK._keyword_aliases (pyLower (pyStrip kw))).any p <;>
    cases hB : (RemoteOK._keyword_alias_items (pyLower (pyStrip kw))).any p <;>
      simp_all

/-- C3: `filter_jobs_by_keyword` returns exactly, in original input order, the
jobs matched by an expanded alias of the keyword or, only when the keyword
yields at least 2 unique tokens of length at least 3, by all such tokens
occurring in the haystack; with fewer than 2 qualifying tokens no
token-fallback match is possible and only alias matches remain. -/
theorem filter_jobs_by_keyword_spec (jobs : List Job) (keyword : String) :
    RemoteOK.filter_jobs_by_keyword jobs keyword = jobs.filter (keywordMatchClaim keyword) ∧
    ((RemoteOK.keywordUniqueTokens (pyLower (pyStrip keyword))).length < 2 →
      RemoteOK.filter_jobs_by_keyword jobs keyword =
        jobs.filter (keywordAliasMatchClaim keyword)) := by
  by_cases hne : pyLower (pyStrip keyword) = ""
  · have hcode : RemoteOK.filter_jobs_by_keyword jobs keyword = jobs := by
      simp only [RemoteOK.filter_jobs_by_keyword]
      rw [if_pos hne]
    have hitems : RemoteOK._keyword_alias_items (pyLower (pyStrip keyword)) = [""] := by
      rw [hne]
      rfl
    have halias : ∀ j : Job, keywordAliasMatchClaim keyword j = true := by
      intro j
      simp only [keywordAliasMatchClaim, hitems, List.any_cons, List.any_nil]
      rw [pyContains_empty]
      rfl
    have hmatch : ∀ j : Job, keywordMatchClaim keyword j = true := by
      intro j
      simp only [keywordMatchClaim]
      rw [halias j]
      rfl
    refine ⟨?_, fun _ => ?_⟩
    · rw [hcode]
      exact (List.filter_eq_self.mpr (fun j _ => hmatch j)).symm
    · rw [hcode]
      exact (List.filter_eq_self.mpr (fun j _ => halias j)).symm
  · simp only [RemoteOK.filter_jobs_by_keyword]
    rw [if_neg hne]
    refine ⟨?_, fun hlt => ?_⟩
    · apply List.filter_congr
      intro j _
      simp only [keywordMatchClaim, keywordAliasMatchClaim]
      rw [any_keyword_aliases keyword hne]
      simp only [RemoteOK._keyword_token_fallback_terms]
      by_cases ht : 2 ≤ (RemoteOK.keywordUniqueTokens (pyLower (pyStrip keyword))).length
      · rw [if_pos ht]
        have htne : RemoteOK.keywordUniqueTokens (pyLower (pyStrip keyword)) ≠ [] := by
          intro h0
          rw [h0] at ht
          exact absurd ht (by decide)
        obtain ⟨t, ts, hts⟩ := List.exists_cons_of_ne_nil htne
        have hts1 : 1 ≤ ts.length := by
          rw [hts] at ht
          simpa using ht
        rw [hts]
        simp [hts1]
      · rw [if_neg ht]
        simp [ht]
    · apply List.filter_congr
      intro j _
      simp only [keywordAliasMatchClaim]
      rw [any_keyword_aliases keyword hne]
      simp only [RemoteOK._keyword_token_fallback_terms]
      rw [if_neg (by omega)]
      simp

/-- C3 witness: the plain keyword `"developer"` yields fewer than 2 qualifying
tokens, so only alias matches apply. -/
theorem filter_jobs_by_keyword_spec_witness :
    ((RemoteOK.keywordUniqueTokens (pyLower (pyStrip "developer"))).length < 2) ∧
    (RemoteOK.filter_jobs_by_keyword [sampleUrlJob] "developer" =
      [sampleUrlJob].filter (keywordAliasMatchClaim "developer")) :=
  ⟨by decide, (filter_jobs_by_keyword_spec [sampleUrlJob] "developer").2 (by decide)⟩

/-- C9: `stable_job_key` is a deterministic pure function; with a nonempty
non-whitespace URL the key is the trimmed URL and never the company/title
composite, otherwise it is the trimmed `company::title` composite. -/
theorem stable_job_key_deterministic_url_preferring (job : Job) :
    (∀ job2 : Job, job2 = job → RemoteOK.stable_job_key job2 = RemoteOK.stable_job_key job) ∧
    (pyStrip job.url ≠ "" → RemoteOK.stable_job_key job = pyStrip job.url) ∧
    (pyStrip job.url = "" →
      RemoteOK.stable_job_key job = pyStrip job.company ++ "::" ++ pyStrip job.position) := by
  refine ⟨fun j2 h => by rw [h], fun h => ?_, fun h => ?_⟩
  · simp only [RemoteOK.stable_job_key]
    rw [if_pos h]
  · simp only [RemoteOK.stable_job_key]
    rw [if_neg (fun hc => hc h)]

/-- C9 witness at a job with a URL and a job with a whitespace-only URL. -/
theorem stable_job_key_witness :
    (pyStrip sampleUrlJob.url ≠ "" ∧
      RemoteOK.stable_job_key sampleUrlJob = pyStrip sampleUrlJob.url) ∧
    (pyStrip sampleNoUrlJob.url = "" ∧
      RemoteOK.stable_job_key sampleNoUrlJob =
        pyStrip sampleNoUrlJob.company ++ "::" ++ pyStrip sampleNoUrlJob.position) :=
  ⟨⟨by decide, (stable_job_key_deterministic_url_preferring sampleUrlJob).2.1 (by decide)⟩,
   ⟨by decide, (stable_job_key_deterministic_url_preferring sampleNoUrlJob).2.2 (by decide)⟩⟩

/-- C2: the jobs forwarded to the language-model stage are exactly those whose
stable key is not in the previous snapshot, in original order; with an empty
snapshot the full list is forwarded. -/
theorem new_jobs_only_spec (jobs : List Job) (seen : Finset String) :
    Agent._new_jobs_only jobs seen =
      jobs.filter (fun j => decide (RemoteOK.stable_job_key j ∉ seen)) ∧
    (seen = ∅ → Agent._new_jobs_only jobs seen = jobs) := by
  have hfe : Agent._new_jobs_only jobs seen =
      jobs.filter (fun j => decide (RemoteOK.stable_job_key j ∉ seen)) := by
    simp only [Agent._new_jobs_only]
    by_cases hs : seen = ∅
    · rw [if_pos hs, hs]
      exact (List.filter_eq_self.mpr (fun j _ => by simp)).symm
    · rw [if_neg hs]
      apply List.filter_congr
      intro j _
      simp [stable_job_key_ne_empty j]
  refine ⟨hfe, fun hs => ?_⟩
  rw [hfe, hs]
  exact List.filter_eq_self.mpr (fun j _ => by simp)

/-- C2 witness: with an empty previous snapshot, the single sample job is
forwarded unchanged. -/
theorem new_jobs_only_witness :
    (∅ : Finset String) = ∅ ∧
    Agent._new_jobs_only [cxJobNew] (∅ : Finset String) = [cxJobNew] :=
  ⟨rfl, (new_jobs_only_spec [cxJobNew] ∅).2 rfl⟩

/-- C1 counterexample: the early generation saves the union of the previous
snapshot and the current keys, not a full replace, and the backend run with
dedup disabled does not overwrite the snapshot at all. -/
theorem snapshot_overwrite_counterexample :
    AgentV1.run_agent_v1_snapshot_after true true {"https://jobs.example/old"} [cxJobNew] =
      {"https://jobs.example/old", "https://jobs.example/new"} ∧
    (Agent.currentSnapshotKeys [cxJobNew]).toFinset = {"https://jobs.example/new"} ∧
    ({"https://jobs.example/old", "https://jobs.example/new"} : Finset String) ≠
      {"https://jobs.example/new"} ∧
    Agent.run_agent_snapshot_after false true {"https://jobs.example/old"} [cxJobNew] true =
      {"https://jobs.example/old"} ∧
    ({"https://jobs.example/old"} : Finset String) ≠ {"https://jobs.example/new"} := by
  refine ⟨?_, ?_, ?_, ?_, ?_⟩ <;> decide

/-- C1 amended: in the backend generation, when dedup is enabled and a
snapshot store is available and at least one keyword-matched job exists, the
snapshot is overwritten at end of run with exactly the current run's full
keyword-matched key set - independent of the previous snapshot and of whether
the run produced email sections. -/
theorem run_snapshot_full_replace (prev : Finset String) (kjobs : List Job) (b : Bool)
    (h : kjobs ≠ []) :
    Agent.run_agent_snapshot_after true true prev kjobs b =
      (kjobs.map RemoteOK.stable_job_key).toFinset := by
  have hfilter : Agent.currentSnapshotKeys kjobs = kjobs.map RemoteOK.stable_job_key := by
    apply List.filter_eq_self.mpr
    intro k hk
    obtain ⟨j, _, rfl⟩ := List.mem_map.mp hk
    simp [stable_job_key_ne_empty j]
  rcases List.exists_cons_of_ne_nil h with ⟨a, l, rfl⟩
  cases b <;> simp [Agent.run_agent_snapshot_after, hfilter]

/-- C1 amended witness. -/
theorem run_snapshot_full_replace_witness :
    ([cxJobNew] : List Job) ≠ [] ∧
    Agent.run_agent_snapshot_after true true {"https://jobs.example/old"} [cxJobNew] false =
      ([cxJobNew].map RemoteOK.stable_job_key).toFinset :=
  ⟨by decide, run_snapshot_full_replace {"https://jobs.example/old"} [cxJobNew] false (by decide)⟩

/-- The capper walk returns a subsequence of its input. -/
theorem capGo_sublist (K : Int) : ∀ (l : List Job) (counts : String → Nat),
    (Agent.capGo K counts l).Sublist l := by
  intro l
  induction l with
  | nil => intro counts; simp [Agent.capGo]
  | cons j rest ih =>
    intro counts
    simp only [Agent.capGo]
    split
    · exact (ih counts).cons j
    · exact (ih _).cons₂ j

/-- Per-company characterization of the capper walk: for each company bucket,
the kept jobs are the first `K - counts c` occurrences of that bucket. -/
theorem capGo_filter (K : Int) (hK : 0 < K) (c : String) :
    ∀ (l : List Job) (counts : String → Nat),
      (Agent.capGo K counts l).filter (fun j => decide (Agent.companyBucketKey j = c)) =
        (l.filter (fun j => decide (Agent.companyBucketKey j = c))).take
          (K.toNat - counts c) := by
  intro l
  induction l with
  | nil => intro counts; simp [Agent.capGo]
  | cons j rest ih =>
    intro counts
    simp only [Agent.capGo]
    by_cases hskip : K ≤ (counts (Agent.companyBucketKey j) : Int)
    · rw [if_pos hskip, ih counts]
      by_cases hc : Agent.companyBucketKey j = c
      · subst hc
        have h0 : K.toNat - counts (Agent.companyBucketKey j) = 0 := by omega
        simp [List.filter_cons, h0]
      · simp [List.filter_cons, hc]
    · rw [if_neg hskip]
      have hlt : counts (Agent.companyBucketKey j) < K.toNat := by omega
      by_cases hc : Agent.companyBucketKey j = c
      · subst hc
        rw [List.filter_cons_of_pos (by simp), List.filter_cons_of_pos (by simp)]
        rw [ih]
        rw [if_pos rfl]
        have harith : K.toNat - counts (Agent.companyBucketKey j) =
            (K.toNat - (counts (Agent.companyBucketKey j) + 1)) + 1 := by omega
        rw [harith, List.take_succ_cons]
      · rw [List.filter_cons_of_neg (by simp [hc]), List.filter_cons_of_neg (by simp [hc])]
        rw [ih]
        rw [if_neg (fun h => hc h.symm)]

/-- C4: with a positive cap `K`, the per-company capper returns a subsequence
of its input in which each company bucket keeps exactly its first `K`
occurrences, hence contributes at most `K` jobs. -/
theorem cap_jobs_per_company_spec (jobs : List Job) (K : Int) (hK : 0 < K) :
    (Agent._cap_jobs_per_company_for_llm jobs K).Sublist jobs ∧
    (∀ c : String,
      (Agent._cap_jobs_per_company_for_llm jobs K).filter
          (fun j => decide (Agent.companyBucketKey j = c)) =
        (jobs.filter (fun j => decide (Agent.companyBucketKey j = c))).take K.toNat) ∧
    (∀ c : String,
      ((Agent._cap_jobs_per_company_for_llm jobs K).filter
          (fun j => decide (Agent.companyBucketKey j = c))).length ≤ K.toNat) := by
  have hneg : ¬ K ≤ 0 := by omega
  simp only [Agent._cap_jobs_per_company_for_llm]
  rw [if_neg hneg]
  refine ⟨capGo_sublist K jobs _, fun c => ?_, fun c => ?_⟩
  · rw [capGo_filter K hK c jobs (fun _ => 0), Nat.sub_zero]
  · rw [capGo_filter K hK c jobs (fun _ => 0), Nat.sub_zero]
    exact List.length_take_le _ _

/-- C4 witness: 10 Acme jobs with cap 3 keep exactly the first 3 Acme jobs. -/
theorem cap_jobs_per_company_spec_witness :
    (0 : Int) < 3 ∧
    (Agent._cap_jobs_per_company_for_llm sampleAcmeJobs 3).filter
        (fun j => decide (Agent.companyBucketKey j = "acme")) =
      (sampleAcmeJobs.filter (fun j => decide (Agent.companyBucketKey j = "acme"))).take
        (3 : Int).toNat :=
  ⟨by decide, (cap_jobs_per_company_spec sampleAcmeJobs 3 (by decide)).2.1 "acme"⟩

/-- Lookup in an association list only returns stored pairs. -/
theorem lookup_mem_pairs (u : String) (j : Job) :
    ∀ l : List (String × Job), l.lookup u = some j → (u, j) ∈ l := by
  intro l
  induction l with
  | nil => intro h; simp [List.lookup] at h
  | cons p rest ih =>
    obtain ⟨k, v⟩ := p
    intro h
    rw [List.lookup] at h
    cases hbk : u == k
    · rw [hbk] at h
      exact List.mem_cons_of_mem _ (ih h)
    · rw [hbk] at h
      injection h with h2
      subst h2
      have hk : u = k := eq_of_beq hbk
      subst hk
      exact List.mem_cons_self _ _

/-- Every pair of the `by_url` association list either was in the accumulator
or stores a job of the candidate pool. -/
theorem mem_byUrlAux :
    ∀ (l : List Job) (acc : List (String × Job)) (x : String × Job),
      x ∈ Agent.byUrlAux acc l → x ∈ acc ∨ x.2 ∈ l := by
  intro l
  induction l with
  | nil =>
    intro acc x h
    exact Or.inl (by simpa [Agent.byUrlAux] using h)
  | cons j rest ih =>
    intro acc x h
    simp only [Agent.byUrlAux] at h
    split at h
    · rcases ih _ x h with hacc | hrest
      · rcases List.mem_append.mp hacc with h1 | h2
        · exact Or.inl h1
        · have hx : x = (pyStrip j.url, j) := by simpa using h2
          exact Or.inr (by rw [hx]; exact List.mem_cons_self _ _)
      · exact Or.inr (List.mem_cons_of_mem _ hrest)
    · rcases ih _ x h with hacc | hrest
      · exact Or.inl hacc
      · exact Or.inr (List.mem_cons_of_mem _ hrest)

/-- Every job produced by the URL-matching loop comes from a lookup in the
`by_url` association list. -/
theorem mem_matchUrlsAux (byUrl : List (String × Job)) (j : Job) :
    ∀ (urls seen : List String),
      j ∈ Agent.matchUrlsAux byUrl seen urls → ∃ u, byUrl.lookup u = some j := by
  intro urls
  induction urls with
  | nil => intro seen h; simp [Agent.matchUrlsAux] at h
  | cons u rest ih =>
    intro seen h
    simp only [Agent.matchUrlsAux] at h
    cases hlk : byUrl.lookup u with
    | none =>
      rw [hlk] at h
      exact ih seen h
    | some job =>
      rw [hlk] at h
      have hm : j ∈ (if (decide (RemoteOK.stable_job_key job ≠ "") &&
          seen.contains (RemoteOK.stable_job_key job)) = true then
            Agent.matchUrlsAux byUrl seen rest
          else if RemoteOK.stable_job_key job ≠ "" then
            job :: Agent.matchUrlsAux byUrl (RemoteOK.stable_job_key job :: seen) rest
          else job :: Agent.matchUrlsAux byUrl seen rest) := h
      have hcase : j = job ∨ (∃ s, j ∈ Agent.matchUrlsAux byUrl s rest) := by
        by_cases h1 : (decide (RemoteOK.stable_job_key job ≠ "") &&
            seen.contains (RemoteOK.stable_job_key job)) = true
        · rw [if_pos h1] at hm
          exact Or.inr ⟨seen, hm⟩
        · rw [if_neg h1] at hm
          by_cases h2 : RemoteOK.stable_job_key job ≠ ""
          · rw [if_pos h2] at hm
            rcases List.mem_cons.mp hm with rfl | hr
            · exact Or.inl rfl
            · exact Or.inr ⟨_, hr⟩
          · rw [if_neg h2] at hm
            rcases List.mem_cons.mp hm with rfl | hr
            · exact Or.inl rfl
            · exact Or.inr ⟨_, hr⟩
      rcases hcase with rfl | ⟨s, hr⟩
      · exact ⟨u, hlk⟩
      · exact ih s hr

/-- Every job reconciled from the model output by URL matching is a member of
the candidate pool that was handed to the reconciler. -/
theorem mem_match_emailed (cleaned_output : String) (pool : List Job) (j : Job)
    (h : j ∈ Agent._match_emailed_jobs_from_output cleaned_output pool) : j ∈ pool := by
  simp only [Agent._match_emailed_jobs_from_output] at h
  split at h
  · simp at h
  · obtain ⟨u, hu⟩ := mem_matchUrlsAux _ j _ [] h
    have hmem := lookup_mem_pairs u j _ hu
    rcases mem_byUrlAux pool [] (u, j) hmem with habs | hp
    · simp at habs
    · exact hp

/-- C5 amended: every job rendered in the "New matches" section via URL
reconciliation (and subsequently recorded as sent) is a member of the uncapped
LLM-candidate pool the reconciler is given - the pool that already had the
negative-keyword/pre-LLM filters and snapshot dedup applied - so the model's
text output can never reintroduce a job those pre-LLM filters excluded; it can,
however, reintroduce a job that only the per-company cap excluded, because the
reconciler matches against the pre-cap pool. -/
theorem match_emailed_jobs_subset_pool (cleaned_output : String) (candidate_jobs : List Job) :
    ∀ j ∈ Agent._match_emailed_jobs_from_output cleaned_output candidate_jobs,
      j ∈ candidate_jobs :=
  fun j hj => mem_match_emailed cleaned_output candidate_jobs j hj

/-- C5 amended witness at a concrete model output and pool. -/
theorem match_emailed_jobs_subset_pool_witness : acmeJob 0 ∈ [acmeJob 0] :=
  match_emailed_jobs_subset_pool "- Dev 0 — Acme — https://acme.example/0" [acmeJob 0]
    (acmeJob 0) (by decide)

/-- C5 counterexample: with four same-company candidates and the run's
per-company cap of 3, the fourth job is not in the capped pool sent to the
model, yet a model output naming its URL reconciles it back into the "New
matches" set, because reconciliation runs against the pre-cap pool. -/
theorem match_emailed_cap_counterexample :
    acmeJob 3 ∈ Agent._match_emailed_jobs_from_output
        "- Dev 3 — Acme — https://acme.example/3"
        [acmeJob 0, acmeJob 1, acmeJob 2, acmeJob 3] ∧
    acmeJob 3 ∉ Agent._cap_jobs_per_company_for_llm
        [acmeJob 0, acmeJob 1, acmeJob 2, acmeJob 3] 3 := by
  exact ⟨by decide, by decide⟩

/-- An empty title matches no hard-negative term. -/
theorem title_empty_no_hard :
    Agent._title_matches_any "" Agent.SOFTWARE_TITLE_HARD_NEGATIVE_TERMS = false := by
  decide

/-- C6: a job is dropped before scoring, ranking and the model call exactly
when (software-focused profile AND hard-negative term in title AND no positive
software term in title) OR a user negative keyword appears in title or tags;
all surviving jobs pass to scoring and ranking. -/
theorem rank_prefilter_spec (jobs : List Job) (o : Agent.AgentOptions) :
    jobs.filter (fun j => Agent.rankKeep j o) =
      jobs.filter (fun j => !jobDroppedClaim j o) ∧
    (Agent._rank_jobs_for_profile jobs o).Perm
      (jobs.filter (fun j => !jobDroppedClaim j o)) := by
  have hpoint : ∀ j : Job, Agent.rankKeep j o = !jobDroppedClaim j o := by
    intro j
    have hirr : Agent._is_obviously_irrelevant_for_software j o =
        (Agent._looks_like_software_focus o &&
          Agent._title_matches_any (pyLower (pyStrip j.position))
            Agent.SOFTWARE_TITLE_HARD_NEGATIVE_TERMS &&
          !Agent._title_matches_any (pyLower (pyStrip j.position))
            Agent.SOFTWARE_TITLE_POSITIVE_TERMS) := by
      simp only [Agent._is_obviously_irrelevant_for_software]
      by_cases hf : Agent._looks_like_software_focus o = true
      · rw [hf]
        simp only [Bool.not_true, Bool.true_and]
        rw [if_neg (by decide)]
        by_cases ht : pyLower (pyStrip j.position) = ""
        · rw [if_pos ht, ht, title_empty_no_hard]
          rfl
        · rw [if_neg ht]
      · rw [Bool.not_eq_true] at hf
        rw [hf]
        simp
    unfold Agent.rankKeep jobDroppedClaim
    rw [hirr, Bool.not_or]
  constructor
  · exact List.filter_congr (fun j _ => hpoint j)
  · simp only [Agent._rank_jobs_for_profile]
    by_cases hj : jobs.isEmpty = true
    · rw [if_pos hj]
      have hnil : jobs = [] := by
        cases jobs
        · rfl
        · exact absurd hj (by simp)
      subst hnil
      simp
    · rw [if_neg hj]
      have hperm := List.perm_insertionSort
        (fun a b => Agent._score_job_for_profile b o ≤ Agent._score_job_for_profile a o)
        (jobs.filter (fun j => Agent.rankKeep j o))
      refine hperm.trans ?_
      rw [List.filter_congr (fun j _ => hpoint j)]

/-- Closed form of the carryover loop while the output is below the limit:
the accumulated output followed by the next `limit - out.length` pool jobs
whose key is in the sent set and not excluded. -/
theorem carryGo_eq (sent excl : Finset String) (limit : Nat) :
    ∀ (l : List Job) (out : List Job), out.length < limit →
      Agent.carryGo sent excl limit out l =
        out ++ (l.filter (fun j =>
          decide (RemoteOK.stable_job_key j ∈ sent) &&
            !decide (RemoteOK.stable_job_key j ∈ excl))).take (limit - out.length) := by
  intro l
  induction l with
  | nil => intro out hout; simp [Agent.carryGo]
  | cons j rest ih =>
    intro out hout
    simp only [Agent.carryGo]
    have hkey := stable_job_key_ne_empty j
    by_cases hexcl : RemoteOK.stable_job_key j ∈ excl
    · rw [if_pos (by simp [hexcl])]
      rw [ih out hout]
      rw [List.filter_cons_of_neg (by simp [hexcl])]
    · rw [if_neg (by simp [hkey, hexcl])]
      by_cases hsent : RemoteOK.stable_job_key j ∈ sent
      · rw [if_pos hsent]
        rw [List.filter_cons_of_pos (by simp [hsent, hexcl])]
        have harith : limit - out.length = (limit - (out.length + 1)) + 1 := by omega
        by_cases hbreak : limit ≤ (out ++ [j]).length
        · rw [if_pos hbreak]
          have hz : limit - (out.length + 1) = 0 := by
            simp at hbreak
            omega
          rw [harith, hz, List.take_succ_cons, List.take_zero]
        · rw [if_neg hbreak]
          have hlen : (out ++ [j]).length < limit := by
            simp at hbreak
            simp [List.length_append]
            omega
          rw [ih (out ++ [j]) hlen]
          rw [harith, List.take_succ_cons]
          simp [List.append_assoc, List.length_append]
      · rw [if_neg hsent]
        rw [if_neg (by simp; omega)]
        rw [ih out hout]
        rw [List.filter_cons_of_neg (by simp [hsent])]

/-- The key of every LLM candidate is in the candidate key set. -/
theorem key_mem_llmCandidateKeys (cands : List Job) (j : Job) (h : j ∈ cands) :
    RemoteOK.stable_job_key j ∈ Agent.llmCandidateKeys cands := by
  simp only [Agent.llmCandidateKeys]
  rw [List.mem_toFinset]
  exact List.mem_filter.mpr
    ⟨List.mem_map_of_mem _ h, by simp [stable_job_key_ne_empty j]⟩

/-- C7: the carryover list is the first `limit` candidate-pool jobs, in pool
order, whose key is in the sent-history set and not among this run's
LLM-candidate keys; it never exceeds `limit`, never contains a job whose key
is an LLM-candidate key, and is disjoint by key from the URL-reconciled "New
matches" jobs. -/
theorem carryover_spec (pool llm_candidates : List Job) (sent : Finset String)
    (limit : Nat) (text : String) (hlim : 0 < limit) :
    Agent._carryover_jobs_from_sent_history pool sent
        (Agent.llmCandidateKeys llm_candidates) limit =
      (pool.filter (fun j => decide (RemoteOK.stable_job_key j ∈ sent) &&
        !decide (RemoteOK.stable_job_key j ∈ Agent.llmCandidateKeys llm_candidates))).take
        limit ∧
    (Agent._carryover_jobs_from_sent_history pool sent
      (Agent.llmCandidateKeys llm_candidates) limit).length ≤ limit ∧
    (∀ j, RemoteOK.stable_job_key j ∈ Agent.llmCandidateKeys llm_candidates →
      j ∉ Agent._carryover_jobs_from_sent_history pool sent
        (Agent.llmCandidateKeys llm_candidates) limit) ∧
    (∀ jn ∈ Agent._match_emailed_jobs_from_output text llm_candidates,
      ∀ jc ∈ Agent._carryover_jobs_from_sent_history pool sent
        (Agent.llmCandidateKeys llm_candidates) limit,
      RemoteOK.stable_job_key jn ≠ RemoteOK.stable_job_key jc) := by
  have hmain : Agent._carryover_jobs_from_sent_history pool sent
      (Agent.llmCandidateKeys llm_candidates) limit =
    (pool.filter (fun j => decide (RemoteOK.stable_job_key j ∈ sent) &&
      !decide (RemoteOK.stable_job_key j ∈ Agent.llmCandidateKeys llm_candidates))).take
      limit := by
    simp only [Agent._carryover_jobs_from_sent_history]
    by_cases hempty : (pool.isEmpty || decide (sent = ∅)) = true
    · rw [if_pos hempty]
      rcases Bool.or_eq_true_iff.mp hempty with hp | hs
      · have : pool = [] := by
          cases pool
          · rfl
          · exact absurd hp (by simp)
        subst this
        simp
      · have hs2 : sent = ∅ := of_decide_eq_true hs
        subst hs2
        have : pool.filter (fun j => decide (RemoteOK.stable_job_key j ∈ (∅ : Finset String)) &&
            !decide (RemoteOK.stable_job_key j ∈ Agent.llmCandidateKeys llm_candidates)) = [] := by
          apply List.filter_eq_nil_iff.mpr
          intro j _
          simp
        rw [this]
        simp
    · rw [if_neg hempty]
      rw [carryGo_eq sent (Agent.llmCandidateKeys llm_candidates) limit pool [] (by simpa using hlim)]
      simp
  have hnotin : ∀ j, RemoteOK.stable_job_key j ∈ Agent.llmCandidateKeys llm_candidates →
      j ∉ Agent._carryover_jobs_from_sent_history pool sent
        (Agent.llmCandidateKeys llm_candidates) limit := by
    intro j hk hmem
    rw [hmain] at hmem
    have hfil := List.mem_of_mem_take hmem
    have := (List.mem_filter.mp hfil).2
    simp [hk] at this
  refine ⟨hmain, ?_, hnotin, ?_⟩
  · rw [hmain]
    exact List.length_take_le _ _
  · intro jn hjn jc hjc heq
    have hjnc : jn ∈ llm_candidates := mem_match_emailed text llm_candidates jn hjn
    have hk := key_mem_llmCandidateKeys llm_candidates jn hjnc
    rw [heq] at hk
    exact hnotin jc hk hjc

/-- C7 witness at a concrete pool, sent-history set and candidate list. -/
theorem carryover_spec_witness :
    0 < 10 ∧
    Agent._carryover_jobs_from_sent_history [acmeJob 0, acmeJob 1] {"https://acme.example/0"}
        (Agent.llmCandidateKeys [acmeJob 1]) 10 =
      ([acmeJob 0, acmeJob 1].filter (fun j =>
        decide (RemoteOK.stable_job_key j ∈ ({"https://acme.example/0"} : Finset String)) &&
          !decide (RemoteOK.stable_job_key j ∈ Agent.llmCandidateKeys [acmeJob 1]))).take 10 :=
  ⟨by decide,
   (carryover_spec [acmeJob 0, acmeJob 1] [acmeJob 1] {"https://acme.example/0"} 10 "NONE"
     (by decide)).1⟩

/-- The seed of a max fold bounds nothing above the fold result. -/
theorem foldl_max_init_le (f : String → Int) :
    ∀ (l : List String) (s : Int), s ≤ l.foldl (fun acc x => max acc (f x)) s := by
  intro l
  induction l with
  | nil => intro s; simp
  | cons x rest ih =>
    intro s
    calc s ≤ max s (f x) := le_max_left _ _
      _ ≤ _ := ih (max s (f x))

/-- Every listed value bounds below the max fold result. -/
theorem foldl_max_le_of_mem (f : String → Int) :
    ∀ (l : List String) (s : Int) (a : String), a ∈ l →
      f a ≤ l.foldl (fun acc x => max acc (f x)) s := by
  intro l
  induction l with
  | nil => intro s a ha; simp at ha
  | cons x rest ih =>
    intro s a ha
    rcases List.mem_cons.mp ha with rfl | hr
    · exact le_trans (le_max_right s (f a)) (foldl_max_init_le f rest (max s (f a)))
    · exact ih _ a hr

/-- The max fold result is the seed or an attained listed value. -/
theorem foldl_max_attained (f : String → Int) :
    ∀ (l : List String) (s : Int),
      l.foldl (fun acc x => max acc (f x)) s = s ∨
        ∃ a ∈ l, l.foldl (fun acc x => max acc (f x)) s = f a := by
  intro l
  induction l with
  | nil => intro s; exact Or.inl rfl
  | cons x rest ih =>
    intro s
    rcases ih (max s (f x)) with h | ⟨a, ha, he⟩
    · rcases le_total s (f x) with hle | hle
      · right
        refine ⟨x, List.mem_cons_self _ _, ?_⟩
        rw [List.foldl_cons, h, max_eq_right hle]
      · left
        rw [List.foldl_cons, h, max_eq_left hle]
    · right
      exact ⟨a, List.mem_cons_of_mem _ ha, by rw [List.foldl_cons, he]⟩

/-- Chunk tier scores are nonnegative. -/
theorem claimChunkTier_nonneg (job : Job) (c : String) : 0 ≤ claimChunkTier job c := by
  unfold claimChunkTier
  split_ifs <;> decide

/-- C8: the keyword base score is the MAXIMUM over the comma-split chunks of
the per-chunk tier score (title 8, else tags 5, else description 3, else
company 1, else 0), not the sum: it bounds every chunk tier and is attained
by some chunk whenever any chunk exists. -/
theorem keyword_base_score_is_max (job : Job) (keyword : String) :
    (∀ c ∈ Agent._keyword_chunks keyword,
      claimChunkTier job c ≤ Agent._keyword_base_score job keyword) ∧
    (Agent._keyword_chunks keyword ≠ [] →
      ∃ c ∈ Agent._keyword_chunks keyword,
        Agent._keyword_base_score job keyword = claimChunkTier job c) := by
  have hbase : Agent._keyword_base_score job keyword =
      (Agent._keyword_chunks keyword).foldl
        (fun acc x => max acc (claimChunkTier job x)) 0 := rfl
  constructor
  · intro c hc
    rw [hbase]
    exact foldl_max_le_of_mem _ _ 0 c hc
  · intro hne
    rw [hbase]
    rcases foldl_max_attained (claimChunkTier job) (Agent._keyword_chunks keyword) 0 with
      h0 | ⟨a, ha, he⟩
    · obtain ⟨c, cs, hcs⟩ := List.exists_cons_of_ne_nil hne
      refine ⟨c, by rw [hcs]; exact List.mem_cons_self _ _, ?_⟩
      rw [h0]
      have h1 : claimChunkTier job c ≤ 0 := by
        have := foldl_max_le_of_mem (claimChunkTier job) (Agent._keyword_chunks keyword) 0 c
          (by rw [hcs]; exact List.mem_cons_self _ _)
        rw [h0] at this
        exact this
      exact le_antisymm (claimChunkTier_nonneg job c) h1
    · exact ⟨a, ha, he⟩

/-- C8 witness at a concrete job and the keyword `"developer"`. -/
theorem keyword_base_score_is_max_witness :
    Agent._keyword_chunks "developer" ≠ [] ∧
    ∃ c ∈ Agent._keyword_chunks "developer",
      Agent._keyword_base_score sampleUrlJob "developer" = claimChunkTier sampleUrlJob c :=
  ⟨by decide, (keyword_base_score_is_max sampleUrlJob "developer").2 (by decide)⟩

/-- With pairwise distinct stable keys, the key-dedup pass is the identity. -/
theorem dedupeJobsAux_eq_self :
    ∀ (jobs : List Job) (seen : List String),
      (jobs.map RemoteOK.stable_job_key).Nodup →
      (∀ j ∈ jobs, RemoteOK.stable_job_key j ∉ seen) →
      Agent.dedupeJobsAux seen jobs = jobs := by
  intro jobs
  induction jobs with
  | nil => intro seen _ _; rfl
  | cons j rest ih =>
    intro seen hnd hns
    simp only [Agent.dedupeJobsAux]
    rw [if_neg (by
      simp [stable_job_key_ne_empty j]
      exact hns j (List.mem_cons_self _ _))]
    rw [List.map_cons, List.nodup_cons] at hnd
    have hrest : Agent.dedupeJobsAux (RemoteOK.stable_job_key j :: seen) rest = rest := by
      apply ih _ hnd.2
      intro j2 hj2 hm
      rcases List.mem_cons.mp hm with he | hm2
      · exact hnd.1 (he ▸ List.mem_map_of_mem _ hj2)
      · exact hns j2 (List.mem_cons_of_mem _ hj2) hm2
    rw [hrest]

/-- Folding same-company jobs into a single existing group appends them in
input order. -/
theorem foldl_addJobToGroups_single :
    ∀ (jobs : List Job) (k d : String) (acc : List Job),
      (∀ j ∈ jobs, pyLower (Agent.companyDisplay j) = k) →
      jobs.foldl (fun gs j => Agent.addJobToGroups gs (pyLower (Agent.companyDisplay j))
        (Agent.companyDisplay j) j) [(k, d, acc)] = [(k, d, acc ++ jobs)] := by
  intro jobs
  induction jobs with
  | nil => intro k d acc _; simp
  | cons j rest ih =>
    intro k d acc hall
    rw [List.foldl_cons]
    have hk := hall j (List.mem_cons_self _ _)
    have hstep : Agent.addJobToGroups [(k, d, acc)] (pyLower (Agent.companyDisplay j))
        (Agent.companyDisplay j) j = [(k, d, acc ++ [j])] := by
      rw [hk]
      simp [Agent.addJobToGroups]
    rw [hstep]
    rw [ih k d (acc ++ [j]) (fun j2 hj2 => hall j2 (List.mem_cons_of_mem _ hj2))]
    simp

/-- Grouping a nonempty single-company job list yields one group holding the
whole list in input order, keyed and named after the first job. -/
theorem buildCompanyGroups_single (j0 : Job) (rest : List Job)
    (hall : ∀ j ∈ j0 :: rest,
      pyLower (Agent.companyDisplay j) = pyLower (Agent.companyDisplay j0)) :
    Agent.buildCompanyGroups (j0 :: rest) =
      [(pyLower (Agent.companyDisplay j0), Agent.companyDisplay j0, j0 :: rest)] := by
  unfold Agent.buildCompanyGroups
  rw [List.foldl_cons]
  have hstep : Agent.addJobToGroups [] (pyLower (Agent.companyDisplay j0))
      (Agent.companyDisplay j0) j0 =
      [(pyLower (Agent.companyDisplay j0), Agent.companyDisplay j0, [j0])] := rfl
  rw [hstep]
  rw [foldl_addJobToGroups_single rest _ _ [j0]
    (fun j hj => hall j (List.mem_cons_of_mem _ hj))]
  rfl

/-- With nonempty trimmed title, company and URL on every job, the bullet
renderer drops nothing. -/
theorem filterMap_bullet_eq_map :
    ∀ jobs : List Job,
      (∀ j ∈ jobs, pyStrip j.position ≠ "" ∧ pyStrip j.company ≠ "" ∧ pyStrip j.url ≠ "") →
      jobs.filterMap Agent._format_job_bullet =
        jobs.map (fun j =>
          "- " ++ pyStrip j.position ++ " — " ++ pyStrip j.company ++ " — " ++ pyStrip j.url) := by
  intro jobs
  induction jobs with
  | nil => intro _; rfl
  | cons j rest ih =>
    intro h
    obtain ⟨h1, h2, h3⟩ := h j (List.mem_cons_self _ _)
    rw [List.filterMap_cons]
    have hb : Agent._format_job_bullet j =
        some ("- " ++ pyStrip j.position ++ " — " ++ pyStrip j.company ++ " — " ++
          pyStrip j.url) := by
      simp only [Agent._format_job_bullet]
      rw [if_pos (by simp [h1, h2, h3])]
    rw [hb, List.map_cons, ih (fun j2 hj2 => h j2 (List.mem_cons_of_mem _ hj2))]

/-- C10 amended: for a single-company job list with pairwise distinct stable
keys, nonempty trimmed title/company/URL on every job, and at most the group
threshold many jobs, the grouped email section is exactly the heading
followed by the original per-job bullet lines, one per job in input order. -/
theorem grouped_section_roundtrip (heading : String) (jobs : List Job) (thr : Nat)
    (hsame : ∀ j ∈ jobs, ∀ j2 ∈ jobs,
      pyLower (Agent.companyDisplay j) = pyLower (Agent.companyDisplay j2))
    (hkeys : (jobs.map RemoteOK.stable_job_key).Nodup)
    (hfields : ∀ j ∈ jobs,
      pyStrip j.position ≠ "" ∧ pyStrip j.company ≠ "" ∧ pyStrip j.url ≠ "")
    (hcount : jobs.length ≤ thr) :
    Agent._build_grouped_job_section heading jobs thr =
      joinWith "\n" (heading :: jobs.map (fun j =>
        "- " ++ pyStrip j.position ++ " — " ++ pyStrip j.company ++ " — " ++
          pyStrip j.url)) := by
  have hded : Agent._dedupe_jobs_by_key jobs = jobs :=
    dedupeJobsAux_eq_self jobs [] hkeys (by simp)
  simp only [Agent._build_grouped_job_section]
  rw [hded]
  cases jobs with
  | nil => rfl
  | cons j0 rest =>
    rw [if_neg (by simp)]
    rw [buildCompanyGroups_single j0 rest
      (fun j hj => hsame j hj j0 (List.mem_cons_self _ _))]
    simp only [List.flatMap_cons, List.flatMap_nil, List.append_nil]
    rw [if_neg (by simp only [List.length_cons] at hcount ⊢; omega)]
    rw [filterMap_bullet_eq_map _ hfields]

/-- C10 amended witness: two CompOne jobs at threshold 4 round-trip exactly. -/
theorem grouped_section_roundtrip_witness :
    Agent._build_grouped_job_section "Still open / previously shared:"
        [cxJobOneA, cxJobOneC] 4 =
      joinWith "\n" ("Still open / previously shared:" :: [cxJobOneA, cxJobOneC].map (fun j =>
        "- " ++ pyStrip j.position ++ " — " ++ pyStrip j.company ++ " — " ++
          pyStrip j.url)) :=
  grouped_section_roundtrip "Still open / previously shared:" [cxJobOneA, cxJobOneC] 4
    (by decide) (by decide) (by decide) (by decide)

/-- C10 counterexample: with two companies interleaved in the input (each far
below the threshold of 4), grouping reorders the bullets by first-seen
company, so the section is not the original per-job bullets in input order. -/
theorem grouped_section_counterexample :
    Agent._build_grouped_job_section "New matches:" [cxJobOneA, cxJobTwoB, cxJobOneC] 4 ≠
      joinWith "\n" ("New matches:" :: [cxJobOneA, cxJobTwoB, cxJobOneC].map (fun j =>
        "- " ++ pyStrip j.position ++ " — " ++ pyStrip j.company ++ " — " ++
          pyStrip j.url)) ∧
    Agent._build_grouped_job_section "New matches:" [cxJobOneA, cxJobTwoB, cxJobOneC] 4 =
      joinWith "\n" ["New matches:",
        "- Role A — CompOne — https://one.example/a",
        "- Role C — CompOne — https://one.example/c",
        "- Role B — CompTwo — https://two.example/b"] :=
  ⟨by decide, by decide⟩
